import Mathlib

/-
Verification of the Magic Triples counters.

The repository counts index triples (i, j, k) of an integer sequence a with
pairwise-distinct indices and a[j]^2 = a[i]*a[k].  The definitions below are
shallow embeddings of the Python functions:

  * naive_triplets       — Graph.py, naive_triplets (cubic brute force, ordered)
  * naive_unordered      — solve_naive.py, the counting core of
                           solve_naive_unordered (i < k convention)
  * optimized_triplets   — Graph.py, optimized_triplets (Counter + divisor
                           enumeration over each distinct mid, LIMIT cap)
  * solve_optimized_count — solve_optimized.py, the counting core of
                           solve_optimized (split at val >= 10^6)

Python integers are unbounded, so sequences are List ℤ and counts are ℕ.
Counter(a) is embedded as the function fun v => a.count v; iteration over
Counter keys is summation over a.toFinset (order is irrelevant, the
accumulator is a sum).  Python's // and % on the nonnegative operands that
occur here agree with Int's / and %.
-/

/-- Embedded from Graph.py and solve_optimized.py: LIMIT = 10**9, the maximum
allowed value in the problem. -/
def LIMIT : ℤ := 10 ^ 9

/-- The Frequency Index: Counter(a), i.e. freq = value -> multiplicity
(0 for absent values, as freq.get(v, 0) yields in the source). -/
def freqIndex (a : List ℤ) : ℤ → ℕ := fun v => a.count v

/-- Embedded from Graph.py, naive_triplets: brute-force count over all ordered
index triples (i, j, k), skipping j == i and k == i or k == j, counting when
a[j]*a[j] == a[i]*a[k]. -/
def naive_triplets (a : List ℤ) : ℕ :=
  ∑ i ∈ Finset.range a.length, ∑ j ∈ Finset.range a.length,
    ∑ k ∈ Finset.range a.length,
      if j ≠ i ∧ k ≠ i ∧ k ≠ j ∧
          a.getD j 0 * a.getD j 0 = a.getD i 0 * a.getD k 0 then 1 else 0

/-- Embedded from solve_naive.py, the counting core of solve_naive_unordered:
for j in range(n), for i in range(n) with i != j, for k in range(i+1, n) with
k != j, count when a[j]*a[j] == a[i]*a[k]. -/
def naive_unordered (a : List ℤ) : ℕ :=
  ∑ j ∈ Finset.range a.length, ∑ i ∈ Finset.range a.length,
    ∑ k ∈ Finset.Ico (i + 1) a.length,
      if i ≠ j ∧ k ≠ j ∧
          a.getD j 0 * a.getD j 0 = a.getD i 0 * a.getD k 0 then 1 else 0

/-- The degenerate term both optimized counters add per value v of
multiplicity c: c*(c-1)*(c-2) when c >= 3 (ordered permutations of three
distinct indices holding the same value). -/
def degenTerm (c : ℕ) : ℕ := if 3 ≤ c then c * (c - 1) * (c - 2) else 0

/-- The shared tail of both optimized counters' general case: if left and
right are present in the Frequency Index (nonzero multiplicity), add
cnt * freq[left] * freq[right], else add nothing.  In Graph.py this is the
"if c_left and c_right" block; in solve_optimized.py the
"if left in freq and right in freq" block (identical semantics, since
Counter(a) holds exactly the values of a, each with count >= 1). -/
def pairContrib (freq : ℤ → ℕ) (cnt : ℕ) (left right : ℤ) : ℕ :=
  if freq left ≠ 0 ∧ freq right ≠ 0 then cnt * freq left * freq right else 0

/-- Embedded from Graph.py, optimized_triplets' per-ratio contribution: with
left = mid // b and right = mid * b, skip the pair when right > LIMIT
(continue), otherwise contribute pairContrib. -/
def genContrib (freq : ℤ → ℕ) (cnt : ℕ) (mid : ℤ) (b : ℕ) : ℕ :=
  if LIMIT < mid * b then 0 else pairContrib freq cnt (mid / b) (mid * b)

/-- Embedded from Graph.py, optimized_triplets' divisor collection: the set
b_set accumulated by "for d in range(1, isqrt(mid) + 1): if mid % d == 0:
b_set.add(d); b_set.add(mid // d)".  The range 1..isqrt(m) is written as the
d in [1, m] with d * d <= m (the same set of loop indices). -/
def bSet (m : ℕ) : Finset ℕ :=
  ((Finset.Icc 1 m).filter fun d => d * d ≤ m).biUnion fun d =>
    if m % d = 0 then {d, m / d} else ∅

/-- Embedded from Graph.py, optimized_triplets: the degenerate term for every
value of multiplicity >= 3, plus, for each distinct mid > 1 (mid <= 1 is
skipped by "continue") and each b in b_set with b > 1, the LIMIT-guarded
contribution genContrib. -/
def optimized_triplets (a : List ℤ) : ℕ :=
  (∑ v ∈ a.toFinset, degenTerm (freqIndex a v)) +
  ∑ mid ∈ a.toFinset,
    if mid ≤ 1 then 0
    else ∑ b ∈ bSet mid.toNat,
      if b ≤ 1 then 0 else genContrib (freqIndex a) (freqIndex a mid) mid b

/-- Embedded from solve_optimized.py, the val >= 10^6 branch: for b in
range(2, LIMIT // val + 1), if val % b == 0, contribute pairContrib with
left = val // b and right = val * b. -/
def largeBranch (a : List ℤ) (val : ℤ) : ℕ :=
  ∑ b ∈ Finset.Icc (2 : ℤ) (LIMIT / val),
    if val % b = 0 then
      pairContrib (freqIndex a) (freqIndex a val) (val / b) (val * b)
    else 0

/-- Embedded from solve_optimized.py, the body of the val < 10^6 while loop
at loop index divisor = d: if val % divisor == 0, take the divisor itself as
ratio b when divisor > 1 (left = val // divisor, right = val * divisor), and
the cofactor other = val // divisor as ratio when other != divisor and
other > 1 (left = divisor, right = val * other); no LIMIT cap. -/
def smallBody (a : List ℤ) (val : ℤ) (d : ℕ) : ℕ :=
  if val % (d : ℤ) = 0 then
    (if 1 < d then
      pairContrib (freqIndex a) (freqIndex a val) (val / d) (val * d)
    else 0)
    + (if val / d ≠ (d : ℤ) ∧ 1 < val / d then
        pairContrib (freqIndex a) (freqIndex a val) d (val * (val / d))
      else 0)
  else 0

/-- Embedded from solve_optimized.py, the val < 10^6 branch: the while loop
"divisor = 1; while divisor * divisor <= val: ...; divisor += 1". -/
def smallLoop (a : List ℤ) (val : ℤ) (d : ℕ) : ℕ :=
  if h : (d : ℤ) * d ≤ val then
    smallBody a val d + smallLoop a val (d + 1)
  else 0
termination_by (val + 1 - d).toNat
decreasing_by
  rcases Nat.eq_zero_or_pos d with h0 | h0
  · subst h0; simp only [Nat.cast_zero, mul_zero] at h; omega
  · have h1 : (1 : ℤ) ≤ d := by exact_mod_cast h0
    have h2 : (d : ℤ) * 1 ≤ (d : ℤ) * d := by
      apply mul_le_mul_of_nonneg_left h1; positivity
    omega

/-- Embedded from solve_optimized.py, the counting core of solve_optimized:
the degenerate term for every value of multiplicity >= 3, plus, for each
distinct val, the val >= 1_000_000 branch or the small-value while loop. -/
def solve_optimized_count (a : List ℤ) : ℕ :=
  (∑ v ∈ a.toFinset, degenTerm (freqIndex a v)) +
  ∑ val ∈ a.toFinset,
    if 1000000 ≤ val then largeBranch a val else smallLoop a val 1

/-- The error taxonomy named by the specification for the count operation. -/
inductive CountError where
  | InvalidInput : CountError
  | Overflow : CountError
deriving DecidableEq

/-- The count operation with its error channel made explicit.  The source
entry point (optimized_triplets) performs no input validation and, computing
with Python's unbounded integers, has no failing or wrapping path on any
integer sequence, so the operation is total: it always returns Except.ok of
the exact count. -/
def count_triples_checked (a : List ℤ) : Except CountError ℕ :=
  Except.ok (optimized_triplets a)

/-- Whether the operation's result is an InvalidInput failure. -/
def isInvalidInputFailure : Except CountError ℕ → Bool
  | Except.error CountError.InvalidInput => true
  | _ => false

/-- C1: the claim states that optimized_triplets returns exactly the same
value as naive_triplets on every sequence of positive integers.  The code
violates this: on [1, 2, 4] the brute force counts both orientations of the
geometric triple (2 ordered triples) while optimized_triplets adds
cnt*cL*cR only once per divisor ratio b > 1 of mid (1 triple), and on
[4, 6, 9] the brute force counts the rational-ratio progression 4, 6, 9
(2 ordered triples) while the divisor enumeration of mid finds none (0).
This theorem evaluates both counters at those failing inputs. -/
theorem naive_optimized_mismatch :
    naive_triplets [1, 2, 4] = 2 ∧ optimized_triplets [1, 2, 4] = 1 ∧
    naive_triplets [4, 6, 9] = 2 ∧ optimized_triplets [4, 6, 9] = 0 := by
  refine ⟨by decide, by decide, by decide, by decide⟩

/-- C6 counterexample: the claim states the count operation fails with
InvalidInput when the input contains a non-positive value.  On [0, 0, 0]
(three non-positive values) the operation does not fail: it returns the
count 6. -/
theorem invalid_input_not_rejected :
    count_triples_checked [0, 0, 0] = Except.ok 6 ∧
    isInvalidInputFailure (count_triples_checked [0, 0, 0]) = false := by
  refine ⟨congrArg Except.ok (by decide), rfl⟩

/-- C6 (amended): the count operation never fails.  On every sequence,
whether or not its values lie in [1, LIMIT], it succeeds with a count and
never signals InvalidInput: the source performs no input validation. -/
theorem count_never_fails (a : List ℤ) :
    isInvalidInputFailure (count_triples_checked a) = false ∧
    count_triples_checked a = Except.ok (optimized_triplets a) :=
  ⟨rfl, rfl⟩

/-- C3: in optimized_triplets, a candidate ratio b > 1 dividing mid yields
left = mid / b and right = mid * b; when right <= LIMIT and both left and
right are present in the Frequency Index the pair contributes
cnt * freq(left) * freq(right), and when right > LIMIT it contributes
nothing, even if left and right are present. -/
theorem ratio_pair_limit_bound (freq : ℤ → ℕ) (cnt : ℕ) (mid : ℤ) (b : ℕ)
    (hmid : 1 < mid) (hb : 1 < b) (hdvd : (b : ℤ) ∣ mid) :
    (mid * b ≤ LIMIT → freq (mid / b) ≠ 0 → freq (mid * b) ≠ 0 →
      genContrib freq cnt mid b = cnt * freq (mid / b) * freq (mid * b)) ∧
    (LIMIT < mid * b → genContrib freq cnt mid b = 0) := by
  constructor
  · intro hle hl hr
    rw [genContrib, if_neg (by omega), pairContrib, if_pos ⟨hl, hr⟩]
  · intro hgt
    rw [genContrib, if_pos hgt]

/-- C3 witness: with mid = 500000000 and b = 2 the pair (250000000, 10^9)
has right exactly at LIMIT and is included; with mid = 10^9 and b = 2 the
pair (500000000, 2 * 10^9) has right = LIMIT + 10^9 and contributes 0 even
though both left and right occur in the sequence. -/
theorem ratio_pair_limit_bound_witness :
    genContrib (freqIndex [250000000, 500000000, 1000000000]) 1 500000000 2 =
      1 * freqIndex [250000000, 500000000, 1000000000] 250000000 *
        freqIndex [250000000, 500000000, 1000000000] 1000000000 ∧
    genContrib (freqIndex [500000000, 1000000000, 2000000000]) 1 1000000000 2
      = 0 := by
  constructor
  · exact (ratio_pair_limit_bound
      (freqIndex [250000000, 500000000, 1000000000]) 1 500000000 2
      (by norm_num) (by norm_num) ⟨250000000, by norm_num⟩).1
      (by decide) (by decide) (by decide)
  · exact (ratio_pair_limit_bound
      (freqIndex [500000000, 1000000000, 2000000000]) 1 1000000000 2
      (by norm_num) (by norm_num) ⟨500000000, by norm_num⟩).2 (by decide)

/-- Helper: the multiplicities stored in the Frequency Index sum to the
sequence length. -/
lemma sum_count_toFinset (a : List ℤ) :
    (∑ v ∈ a.toFinset, a.count v) = a.length := by
  have h := Multiset.toFinset_sum_count_eq (a : Multiset ℤ)
  simpa [Multiset.coe_count] using h

/-- C8: the Frequency Index Counter(a) satisfies its invariant: the
multiplicities over all stored keys sum to n = a.length, and every stored
key has multiplicity at least 1.  The index is a pure function of the
sequence, built once and only read during counting, so the invariant holds
throughout. -/
theorem freq_index_invariant (a : List ℤ) :
    (∑ v ∈ a.toFinset, freqIndex a v) = a.length ∧
    ∀ v ∈ a.toFinset, 1 ≤ freqIndex a v := by
  constructor
  · exact sum_count_toFinset a
  · intro v hv
    exact List.count_pos_iff.mpr (List.mem_toFinset.mp hv)

/-- Helper: integer division of a positive integer by b > 1 strictly
decreases it. -/
lemma int_ediv_lt_self {m b : ℤ} (hm : 0 < m) (hb : 1 < b) : m / b < m := by
  by_contra hcon
  push_neg at hcon
  have h1 : m * b ≤ m / b * b := mul_le_mul_of_nonneg_right hcon (by omega)
  have h2 : m / b * b ≤ m := Int.ediv_mul_le m (by omega)
  have h3 : m * 2 ≤ m * b := mul_le_mul_of_nonneg_left (by omega) (by omega)
  omega

/-- Helper: a sequence holding three pairwise-distinct values has length at
least 3. -/
lemma length_ge_three_of_counts {a : List ℤ} {x y z : ℤ} (hxy : x ≠ y)
    (hxz : x ≠ z) (hyz : y ≠ z) (hx : a.count x ≠ 0) (hy : a.count y ≠ 0)
    (hz : a.count z ≠ 0) : 3 ≤ a.length := by
  have hmx : x ∈ a.toFinset := List.mem_toFinset.mpr (List.count_pos_iff.mp (by omega))
  have hmy : y ∈ a.toFinset := List.mem_toFinset.mpr (List.count_pos_iff.mp (by omega))
  have hmz : z ∈ a.toFinset := List.mem_toFinset.mpr (List.count_pos_iff.mp (by omega))
  have hsub : ({x, y, z} : Finset ℤ) ⊆ a.toFinset := by
    intro w hw
    simp only [Finset.mem_insert, Finset.mem_singleton] at hw
    rcases hw with rfl | rfl | rfl <;> assumption
  have hcard : ({x, y, z} : Finset ℤ).card = 3 :=
    Finset.card_eq_three.mpr ⟨x, y, z, hxy, hxz, hyz, rfl⟩
  calc 3 = ({x, y, z} : Finset ℤ).card := hcard.symm
    _ ≤ a.toFinset.card := Finset.card_le_card hsub
    _ ≤ a.length := List.toFinset_card_le a

/-- Helper: the brute force counts nothing on sequences shorter than 3. -/
lemma naive_short (a : List ℤ) (h : a.length < 3) : naive_triplets a = 0 := by
  rw [naive_triplets]
  refine Finset.sum_eq_zero fun i hi => Finset.sum_eq_zero fun j hj =>
    Finset.sum_eq_zero fun k hk => ?_
  rw [if_neg]
  rintro ⟨h1, h2, h3, -⟩
  rw [Finset.mem_range] at hi hj hk
  omega

/-- Helper: the optimized counter counts nothing on sequences shorter
than 3. -/
lemma optimized_short (a : List ℤ) (h : a.length < 3) :
    optimized_triplets a = 0 := by
  rw [optimized_triplets]
  have hdeg : (∑ v ∈ a.toFinset, degenTerm (freqIndex a v)) = 0 := by
    refine Finset.sum_eq_zero fun v hv => ?_
    have h1 : a.count v ≤ a.length := List.count_le_length v a
    have h2 : freqIndex a v = a.count v := rfl
    rw [degenTerm, if_neg]
    omega
  have hgen : (∑ mid ∈ a.toFinset, if mid ≤ 1 then 0
      else ∑ b ∈ bSet mid.toNat,
        if b ≤ 1 then 0
        else genContrib (freqIndex a) (freqIndex a mid) mid b) = 0 := by
    refine Finset.sum_eq_zero fun mid hmid => ?_
    by_cases hm : mid ≤ 1
    · rw [if_pos hm]
    · rw [if_neg hm]
      refine Finset.sum_eq_zero fun b hb => ?_
      by_cases hb1 : b ≤ 1
      · rw [if_pos hb1]
      · rw [if_neg hb1, genContrib]
        by_cases hL : LIMIT < mid * b
        · rw [if_pos hL]
        · rw [if_neg hL, pairContrib, if_neg]
          rintro ⟨hl, hr⟩
          have hmcount : a.count mid ≠ 0 := by
            have := List.count_pos_iff.mpr (List.mem_toFinset.mp hmid)
            omega
          have hb2 : (1 : ℤ) < (b : ℕ) := by exact_mod_cast show 1 < b by omega
          have hlt1 : mid / (b : ℕ) < mid := int_ediv_lt_self (by omega) hb2
          have hlt2 : mid < mid * (b : ℕ) := by
            have := mul_lt_mul_of_pos_left hb2 (show (0:ℤ) < mid by omega)
            omega
          have := length_ge_three_of_counts (ne_of_lt hlt1)
            (ne_of_lt (lt_trans hlt1 hlt2)) (ne_of_lt hlt2) hl hmcount hr
          omega
  rw [hdeg, hgen]

/-- C9: on every sequence with fewer than 3 elements both the brute-force
and the optimized Ordered counts are 0: a degenerate contribution needs a
multiplicity of at least 3, and a general contribution needs the three
pairwise-distinct values mid/b < mid < mid*b all present. -/
theorem short_sequence_zero (a : List ℤ) (h : a.length < 3) :
    naive_triplets a = 0 ∧ optimized_triplets a = 0 :=
  ⟨naive_short a h, optimized_short a h⟩

/-- C9 witness: the two-element sequence [5, 5] has both counts 0. -/
theorem short_sequence_zero_witness :
    naive_triplets [5, 5] = 0 ∧ optimized_triplets [5, 5] = 0 :=
  short_sequence_zero [5, 5] (by decide)

/-- Helper: getD of a replicated list at an in-range index. -/
lemma getD_replicate {c : ℕ} {v : ℤ} {i : ℕ} (h : i < c) :
    (List.replicate c v).getD i 0 = v := by
  rw [List.getD_eq_getElem?_getD, List.getElem?_replicate, if_pos h]
  rfl

/-- Helper: the distinct values of a nonempty replicated list. -/
lemma toFinset_replicate_pos {c : ℕ} {v : ℤ} (h : 0 < c) :
    (List.replicate c v).toFinset = {v} := by
  ext x
  simp only [List.mem_toFinset, List.mem_replicate, Finset.mem_singleton]
  constructor
  · rintro ⟨-, hx⟩; exact hx
  · intro hx; exact ⟨by omega, hx⟩

/-- Helper: count of a different value in a replicated list is 0. -/
lemma count_replicate_ne {c : ℕ} {v x : ℤ} (h : x ≠ v) :
    (List.replicate c v).count x = 0 := by
  rw [List.count_replicate, if_neg]
  intro hc
  exact h (beq_iff_eq.mp hc).symm

/-- Helper: the number of ordered triples of pairwise-distinct indices below
n is n * (n-1) * (n-2). -/
lemma sum_distinct_triples (n : ℕ) :
    (∑ i ∈ Finset.range n, ∑ j ∈ Finset.range n, ∑ k ∈ Finset.range n,
      if j ≠ i ∧ k ≠ i ∧ k ≠ j then (1 : ℕ) else 0) = n * (n - 1) * (n - 2) := by
  have hstep : ∀ i ∈ Finset.range n,
      (∑ j ∈ Finset.range n, ∑ k ∈ Finset.range n,
        if j ≠ i ∧ k ≠ i ∧ k ≠ j then (1 : ℕ) else 0) = (n - 1) * (n - 2) := by
    intro i hi
    have hi' : i < n := Finset.mem_range.mp hi
    have hj : ∀ j ∈ Finset.range n,
        (∑ k ∈ Finset.range n, if j ≠ i ∧ k ≠ i ∧ k ≠ j then (1 : ℕ) else 0)
        = if j ≠ i then n - 2 else 0 := by
      intro j hjm
      have hj' : j < n := Finset.mem_range.mp hjm
      by_cases hij : j ≠ i
      · rw [if_pos hij]
        have hcongr : ∀ k ∈ Finset.range n,
            (if j ≠ i ∧ k ≠ i ∧ k ≠ j then (1 : ℕ) else 0)
            = if k ≠ i ∧ k ≠ j then (1 : ℕ) else 0 := by
          intro k _
          exact if_congr (by tauto) rfl rfl
        rw [Finset.sum_congr rfl hcongr, ← Finset.card_filter]
        have hset : (Finset.range n).filter (fun k => k ≠ i ∧ k ≠ j)
            = Finset.range n \ {i, j} := by
          ext k
          simp only [Finset.mem_filter, Finset.mem_sdiff, Finset.mem_insert,
            Finset.mem_singleton, Finset.mem_range]
          tauto
        rw [hset, Finset.card_sdiff, Finset.card_pair (Ne.symm hij),
          Finset.card_range]
        intro x hx
        simp only [Finset.mem_insert, Finset.mem_singleton] at hx
        rcases hx with rfl | rfl <;> simp [Finset.mem_range, hi', hj']
      · rw [if_neg hij]
        refine Finset.sum_eq_zero fun k _ => ?_
        rw [if_neg]
        tauto
    rw [Finset.sum_congr rfl hj, ← Finset.sum_filter, Finset.sum_const,
      smul_eq_mul, Finset.filter_ne', Finset.card_erase_of_mem hi,
      Finset.card_range]
  rw [Finset.sum_congr rfl hstep, Finset.sum_const, smul_eq_mul,
    Finset.card_range, mul_assoc]

/-- Helper: the brute force on a constant sequence counts exactly the
ordered triples of pairwise-distinct indices. -/
lemma naive_replicate (v : ℤ) (c : ℕ) :
    naive_triplets (List.replicate c v) = c * (c - 1) * (c - 2) := by
  rw [naive_triplets, List.length_replicate, ← sum_distinct_triples c]
  refine Finset.sum_congr rfl fun i hi => Finset.sum_congr rfl fun j hj =>
    Finset.sum_congr rfl fun k hk => ?_
  rw [Finset.mem_range] at hi hj hk
  rw [getD_replicate hi, getD_replicate hj, getD_replicate hk]
  exact if_congr (by tauto) rfl rfl

/-- Helper: the optimized counter on a constant sequence of a positive value
reduces to the degenerate term: every general-case ratio b > 1 sends
left = v / b strictly below v, a value that does not occur. -/
lemma optimized_replicate (v : ℤ) (c : ℕ) (hv : 1 ≤ v) :
    optimized_triplets (List.replicate c v) = degenTerm c := by
  rcases Nat.eq_zero_or_pos c with rfl | hc
  · rw [List.replicate_zero]
    rw [show optimized_triplets [] = 0 from rfl, degenTerm, if_neg (by omega)]
  · rw [optimized_triplets, toFinset_replicate_pos hc, Finset.sum_singleton,
      Finset.sum_singleton]
    have hcount : freqIndex (List.replicate c v) v = c := by
      have : (List.replicate c v).count v = c := by
        rw [List.count_replicate, if_pos (by simp)]
      exact this
    rw [hcount]
    by_cases hv1 : v ≤ 1
    · rw [if_pos hv1, add_zero]
    · rw [if_neg hv1]
      have hz : ∀ b ∈ bSet v.toNat,
          (if b ≤ 1 then 0
           else genContrib (freqIndex (List.replicate c v)) c v b) = 0 := by
        intro b hb
        by_cases hb1 : b ≤ 1
        · rw [if_pos hb1]
        · rw [if_neg hb1, genContrib]
          by_cases hL : LIMIT < v * b
          · rw [if_pos hL]
          · rw [if_neg hL, pairContrib, if_neg]
            rintro ⟨h1, -⟩
            have hb2 : (1 : ℤ) < (b : ℕ) := by
              exact_mod_cast show 1 < b by omega
            have hlt : v / (b : ℕ) < v := int_ediv_lt_self (by omega) hb2
            exact h1 (count_replicate_ne (ne_of_lt hlt))
      rw [Finset.sum_eq_zero hz, add_zero]

/-- C4: a constant sequence of a positive value v repeated c times has
Ordered count exactly c*(c-1)*(c-2) when c >= 3 and 0 when c < 3, for both
the brute-force and the optimized counter. -/
theorem all_equal_counts (v : ℤ) (c : ℕ) (hv : 1 ≤ v) :
    naive_triplets (List.replicate c v)
      = (if 3 ≤ c then c * (c - 1) * (c - 2) else 0) ∧
    optimized_triplets (List.replicate c v)
      = (if 3 ≤ c then c * (c - 1) * (c - 2) else 0) := by
  have hformula : c * (c - 1) * (c - 2)
      = (if 3 ≤ c then c * (c - 1) * (c - 2) else 0) := by
    by_cases h3 : 3 ≤ c
    · rw [if_pos h3]
    · rw [if_neg h3]
      interval_cases c <;> rfl
  constructor
  · rw [naive_replicate]
    exact hformula
  · rw [optimized_replicate v c hv]
    rfl

/-- C4 witness: [2, 2, 2] yields 6 on both counters (and 3 < 3 repetitions
of a value yield 0 via the same theorem's if-branch). -/
theorem all_equal_counts_witness :
    naive_triplets (List.replicate 3 (2 : ℤ)) = 6 ∧
    optimized_triplets (List.replicate 3 (2 : ℤ)) = 6 := by
  have h := all_equal_counts 2 3 (by norm_num)
  constructor
  · rw [h.1]; decide
  · rw [h.2]; decide

/-- C7: the count operation never signals Overflow and never returns a
silently wrapped count.  The accumulator is Python's unbounded integer (the
specification's wider-intermediate-type option), so no intermediate or final
count ever exceeds its range: the operation always returns Except.ok of the
exact count.  In particular on 2^22 copies of 1 the exact count
2^22*(2^22-1)*(2^22-2) exceeds 2^64 and differs from its value wrapped to
64 bits, yet the operation returns it exactly. -/
theorem count_no_overflow_wrap :
    (∀ a : List ℤ, count_triples_checked a = Except.ok (optimized_triplets a)) ∧
    count_triples_checked (List.replicate (2 ^ 22) (1 : ℤ)) =
      Except.ok (2 ^ 22 * (2 ^ 22 - 1) * (2 ^ 22 - 2)) ∧
    2 ^ 64 < 2 ^ 22 * (2 ^ 22 - 1) * (2 ^ 22 - 2) ∧
    (2 ^ 22 * (2 ^ 22 - 1) * (2 ^ 22 - 2)) % 2 ^ 64
      < 2 ^ 22 * (2 ^ 22 - 1) * (2 ^ 22 - 2) := by
  have hval : optimized_triplets (List.replicate (2 ^ 22) (1 : ℤ))
      = 2 ^ 22 * (2 ^ 22 - 1) * (2 ^ 22 - 2) := by
    rw [optimized_replicate 1 (2 ^ 22) le_rfl, degenTerm, if_pos (by norm_num)]
  refine ⟨fun a => rfl, congrArg Except.ok hval, by norm_num, ?_⟩
  exact lt_trans (Nat.mod_lt _ (by norm_num)) (by norm_num)

/-- Helper: the degenerate term is monotone in the multiplicity. -/
lemma degenTerm_mono {c c' : ℕ} (h : c ≤ c') : degenTerm c ≤ degenTerm c' := by
  rw [degenTerm, degenTerm]
  by_cases h3 : 3 ≤ c
  · rw [if_pos h3, if_pos (by omega)]
    exact Nat.mul_le_mul (Nat.mul_le_mul h (by omega)) (by omega)
  · rw [if_neg h3]
    exact Nat.zero_le _

/-- Helper: a pair contribution is monotone in the Frequency Index and the
mid multiplicity. -/
lemma pairContrib_mono {f g : ℤ → ℕ} {c c' : ℕ} {l r : ℤ}
    (hf : ∀ x, f x ≤ g x) (hc : c ≤ c') :
    pairContrib f c l r ≤ pairContrib g c' l r := by
  rw [pairContrib, pairContrib]
  by_cases hfp : f l ≠ 0 ∧ f r ≠ 0
  · have hgl : g l ≠ 0 := by have := hf l; omega
    have hgr : g r ≠ 0 := by have := hf r; omega
    rw [if_pos hfp, if_pos ⟨hgl, hgr⟩]
    exact Nat.mul_le_mul (Nat.mul_le_mul hc (hf l)) (hf r)
  · rw [if_neg hfp]
    exact Nat.zero_le _

/-- Helper: a LIMIT-guarded contribution is monotone in the Frequency Index
and the mid multiplicity. -/
lemma genContrib_mono {f g : ℤ → ℕ} {c c' : ℕ} {mid : ℤ} {b : ℕ}
    (hf : ∀ x, f x ≤ g x) (hc : c ≤ c') :
    genContrib f c mid b ≤ genContrib g c' mid b := by
  rw [genContrib, genContrib]
  by_cases hL : LIMIT < mid * b
  · rw [if_pos hL, if_pos hL]
  · rw [if_neg hL, if_neg hL]
    exact pairContrib_mono hf hc

/-- Helper: appending one element never decreases a value's count. -/
lemma count_append_le (a : List ℤ) (v x : ℤ) :
    freqIndex a x ≤ freqIndex (a ++ [v]) x := by
  have h : (a ++ [v]).count x = a.count x + [v].count x := List.count_append x a [v]
  have h1 : freqIndex a x = a.count x := rfl
  have h2 : freqIndex (a ++ [v]) x = (a ++ [v]).count x := rfl
  omega

/-- Helper: appending a value that already occurs keeps the distinct-value
set unchanged. -/
lemma toFinset_append_mem {a : List ℤ} {v : ℤ} (hv : v ∈ a) :
    (a ++ [v]).toFinset = a.toFinset := by
  rw [List.toFinset_append]
  have h1 : ([v] : List ℤ).toFinset = {v} := rfl
  rw [h1]
  exact Finset.union_eq_left.mpr
    (Finset.singleton_subset_iff.mpr (List.mem_toFinset.mpr hv))

/-- Helper: the brute-force count never decreases when any element is
appended: old triples keep their indices and values. -/
lemma naive_append_mono (a : List ℤ) (v : ℤ) :
    naive_triplets a ≤ naive_triplets (a ++ [v]) := by
  rw [naive_triplets, naive_triplets, List.length_append]
  have hlen : a.length ≤ a.length + [v].length := by omega
  have hsub : Finset.range a.length ⊆ Finset.range (a.length + [v].length) :=
    Finset.range_subset.mpr hlen
  have heq : (∑ i ∈ Finset.range a.length, ∑ j ∈ Finset.range a.length,
      ∑ k ∈ Finset.range a.length,
        if j ≠ i ∧ k ≠ i ∧ k ≠ j ∧
            a.getD j 0 * a.getD j 0 = a.getD i 0 * a.getD k 0 then 1 else 0)
      = ∑ i ∈ Finset.range a.length, ∑ j ∈ Finset.range a.length,
        ∑ k ∈ Finset.range a.length,
          if j ≠ i ∧ k ≠ i ∧ k ≠ j ∧
              (a ++ [v]).getD j 0 * (a ++ [v]).getD j 0
                = (a ++ [v]).getD i 0 * (a ++ [v]).getD k 0 then 1 else 0 := by
    refine Finset.sum_congr rfl fun i hi => Finset.sum_congr rfl fun j hj =>
      Finset.sum_congr rfl fun k hk => ?_
    rw [Finset.mem_range] at hi hj hk
    rw [List.getD_append a [v] 0 i hi, List.getD_append a [v] 0 j hj,
      List.getD_append a [v] 0 k hk]
  rw [heq]
  refine le_trans (Finset.sum_le_sum fun i _ => ?_)
    (Finset.sum_le_sum_of_subset hsub)
  exact le_trans (Finset.sum_le_sum fun j _ => Finset.sum_le_sum_of_subset hsub)
    (Finset.sum_le_sum_of_subset hsub)

/-- Helper: the optimized count never decreases when a value that already
occurs is appended: the distinct-value set is unchanged and every term is
monotone in the multiplicities. -/
lemma optimized_append_mono (a : List ℤ) (v : ℤ) (hv : v ∈ a) :
    optimized_triplets a ≤ optimized_triplets (a ++ [v]) := by
  have htf := toFinset_append_mem hv
  have hcount := count_append_le a v
  rw [optimized_triplets, optimized_triplets, htf]
  refine Nat.add_le_add (Finset.sum_le_sum fun x _ => degenTerm_mono (hcount x))
    (Finset.sum_le_sum fun mid _ => ?_)
  by_cases hm : mid ≤ 1
  · rw [if_pos hm, if_pos hm]
  · rw [if_neg hm, if_neg hm]
    refine Finset.sum_le_sum fun b _ => ?_
    by_cases hb : b ≤ 1
    · rw [if_pos hb, if_pos hb]
    · rw [if_neg hb, if_neg hb]
      exact genContrib_mono hcount (hcount mid)

/-- C5: appending a value that already occurs in the sequence never
decreases the Ordered count, for both the brute-force and the optimized
counter. -/
theorem append_existing_mono (a : List ℤ) (v : ℤ) (hv : v ∈ a) :
    naive_triplets a ≤ naive_triplets (a ++ [v]) ∧
    optimized_triplets a ≤ optimized_triplets (a ++ [v]) :=
  ⟨naive_append_mono a v, optimized_append_mono a v hv⟩

/-- C5 witness: appending another 2 to [1, 2, 4] never decreases either
count. -/
theorem append_existing_mono_witness :
    naive_triplets [1, 2, 4] ≤ naive_triplets ([1, 2, 4] ++ [2]) ∧
    optimized_triplets [1, 2, 4] ≤ optimized_triplets ([1, 2, 4] ++ [2]) :=
  append_existing_mono [1, 2, 4] 2 (by decide)

/-- Helper: a double sum of a symmetric, diagonal-free array over a square
range is twice its upper-triangle sum. -/
lemma double_sum_symm_split (n : ℕ) (F : ℕ → ℕ → ℕ)
    (hsym : ∀ i k, F i k = F k i) (hdiag : ∀ i, F i i = 0) :
    (∑ i ∈ Finset.range n, ∑ k ∈ Finset.range n, F i k)
    = 2 * ∑ i ∈ Finset.range n, ∑ k ∈ Finset.Ico (i + 1) n, F i k := by
  have hico : ∀ i : ℕ,
      (Finset.range n).filter (fun k => i < k) = Finset.Ico (i + 1) n := by
    intro i
    ext k
    simp only [Finset.mem_filter, Finset.mem_range, Finset.mem_Ico]
    omega
  have hsplit : ∀ i ∈ Finset.range n,
      (∑ k ∈ Finset.range n, F i k)
      = (∑ k ∈ (Finset.range n).filter (fun k => k < i), F i k)
        + ∑ k ∈ (Finset.range n).filter (fun k => i < k), F i k := by
    intro i hi
    rw [← Finset.sum_filter_add_sum_filter_not (Finset.range n)
      (fun k => k < i) (F i)]
    congr 1
    refine (Finset.sum_subset ?_ ?_).symm
    · intro x hx
      simp only [Finset.mem_filter, Finset.mem_range] at hx ⊢
      omega
    · intro x hx hnx
      simp only [Finset.mem_filter, Finset.mem_range] at hx hnx
      have hxi : x = i := by omega
      rw [hxi]
      exact hdiag i
  rw [Finset.sum_congr rfl hsplit, Finset.sum_add_distrib]
  have h1 : (∑ i ∈ Finset.range n,
      ∑ k ∈ (Finset.range n).filter (fun k => k < i), F i k)
      = ∑ k ∈ Finset.range n,
        ∑ i ∈ (Finset.range n).filter (fun i => k < i), F i k :=
    Finset.sum_comm' (by
      intro x y
      simp only [Finset.mem_filter, Finset.mem_range]
      omega)
  have h2 : (∑ k ∈ Finset.range n,
      ∑ i ∈ (Finset.range n).filter (fun i => k < i), F i k)
      = ∑ k ∈ Finset.range n,
        ∑ i ∈ (Finset.range n).filter (fun i => k < i), F k i :=
    Finset.sum_congr rfl fun k _ => Finset.sum_congr rfl fun i _ => hsym i k
  have h3 : (∑ i ∈ Finset.range n,
      ∑ k ∈ (Finset.range n).filter (fun k => i < k), F i k)
      = ∑ i ∈ Finset.range n, ∑ k ∈ Finset.Ico (i + 1) n, F i k :=
    Finset.sum_congr rfl fun i _ => by rw [hico i]
  rw [h1, h2]
  have h4 : (∑ k ∈ Finset.range n,
      ∑ i ∈ (Finset.range n).filter (fun i => k < i), F k i)
      = ∑ i ∈ Finset.range n,
        ∑ k ∈ (Finset.range n).filter (fun k => i < k), F i k := rfl
  rw [h4, h3]
  omega

/-- C2: the Ordered brute-force count (naive_triplets) is exactly twice the
Unordered brute-force count that enforces i < k on the outer pair (the core
loop of solve_naive_unordered): the condition a[j]^2 = a[i]*a[k] is
symmetric in i and k, and i = k never occurs. -/
theorem ordered_eq_two_mul_unordered (a : List ℤ) :
    naive_triplets a = 2 * naive_unordered a := by
  rw [naive_triplets, naive_unordered, Finset.sum_comm, Finset.mul_sum]
  refine Finset.sum_congr rfl fun j hj => ?_
  have hsym : ∀ i k,
      (if j ≠ i ∧ k ≠ i ∧ k ≠ j ∧
          a.getD j 0 * a.getD j 0 = a.getD i 0 * a.getD k 0
        then (1 : ℕ) else 0)
      = if j ≠ k ∧ i ≠ k ∧ i ≠ j ∧
          a.getD j 0 * a.getD j 0 = a.getD k 0 * a.getD i 0
        then (1 : ℕ) else 0 := by
    intro i k
    refine if_congr ⟨?_, ?_⟩ rfl rfl
    · rintro ⟨h1, h2, h3, h4⟩
      exact ⟨Ne.symm h3, Ne.symm h2, Ne.symm h1, h4.trans (mul_comm _ _)⟩
    · rintro ⟨h1, h2, h3, h4⟩
      exact ⟨Ne.symm h3, Ne.symm h2, Ne.symm h1, h4.trans (mul_comm _ _)⟩
  have hdiag : ∀ i,
      (if j ≠ i ∧ i ≠ i ∧ i ≠ j ∧
          a.getD j 0 * a.getD j 0 = a.getD i 0 * a.getD i 0
        then (1 : ℕ) else 0) = 0 := by
    intro i
    rw [if_neg]
    rintro ⟨-, h2, -, -⟩
    exact h2 rfl
  rw [double_sum_symm_split a.length _ hsym hdiag]
  congr 1
  refine Finset.sum_congr rfl fun i hi => Finset.sum_congr rfl fun k hk => ?_
  have hik : i < k := by
    have := (Finset.mem_Ico.mp hk).1
    omega
  refine if_congr ⟨?_, ?_⟩ rfl rfl
  · rintro ⟨h1, h2, h3, h4⟩
    exact ⟨Ne.symm h1, h3, h4⟩
  · rintro ⟨h1, h2, h3⟩
    exact ⟨Ne.symm h1, by omega, h2, h3⟩

/-- Helper: the b_set collected by Graph.py's loop over d in 1..isqrt(m) is
exactly the divisor set of m. -/
lemma bSet_eq_divisors (m : ℕ) (hm : m ≠ 0) : bSet m = m.divisors := by
  ext x
  simp only [bSet, Finset.mem_biUnion, Finset.mem_filter, Finset.mem_Icc,
    Nat.mem_divisors]
  constructor
  · rintro ⟨d, ⟨⟨hd1, hdm⟩, hdd⟩, hx⟩
    by_cases hmod : m % d = 0
    · rw [if_pos hmod] at hx
      have hdvd : d ∣ m := Nat.dvd_of_mod_eq_zero hmod
      simp only [Finset.mem_insert, Finset.mem_singleton] at hx
      rcases hx with rfl | rfl
      · exact ⟨hdvd, hm⟩
      · exact ⟨Nat.div_dvd_of_dvd hdvd, hm⟩
    · rw [if_neg hmod] at hx
      exact absurd hx (Finset.not_mem_empty x)
  · rintro ⟨hdvd, -⟩
    have hmpos : 0 < m := Nat.pos_of_ne_zero hm
    have hx1 : 1 ≤ x := by
      rcases Nat.eq_zero_or_pos x with rfl | hx
      · exact absurd (Nat.eq_zero_of_zero_dvd hdvd) hm
      · exact hx
    have hxm : x ≤ m := Nat.le_of_dvd hmpos hdvd
    by_cases hsq : x * x ≤ m
    · refine ⟨x, ⟨⟨hx1, hxm⟩, hsq⟩, ?_⟩
      rw [if_pos (Nat.dvd_iff_mod_eq_zero.mp hdvd)]
      simp
    · have hddvd : m / x ∣ m := Nat.div_dvd_of_dvd hdvd
      have hd1 : 1 ≤ m / x := (Nat.le_div_iff_mul_le (by omega)).mpr (by omega)
      have hdm : m / x ≤ m := Nat.div_le_self m x
      have hdlt : m / x < x := (Nat.div_lt_iff_lt_mul (by omega)).mpr (by omega)
      have hde : m / x * x = m := Nat.div_mul_cancel hdvd
      have hdd : m / x * (m / x) ≤ m := by
        calc m / x * (m / x) ≤ m / x * x := Nat.mul_le_mul_left _ (le_of_lt hdlt)
          _ = m := hde
      refine ⟨m / x, ⟨⟨hd1, hdm⟩, hdd⟩, ?_⟩
      rw [if_pos (Nat.dvd_iff_mod_eq_zero.mp hddvd)]
      have hback : m / (m / x) = x := Nat.div_div_self hdvd hm
      simp [hback]

/-- Helper: summing any H over all divisors b >= 2 of m equals summing, over
the divisors d of m with d*d <= m, the term for d (when d > 1) plus the term
for the cofactor m/d (when the cofactor differs from d and exceeds 1) — the
pairing that solve_optimized.py's while loop implements. -/
lemma divisor_pairing (m : ℕ) (hm : m ≠ 0) (H : ℕ → ℕ) :
    (∑ d ∈ m.divisors.filter (fun d => d * d ≤ m),
      ((if 1 < d then H d else 0)
        + if m / d ≠ d ∧ 1 < m / d then H (m / d) else 0))
    = ∑ b ∈ m.divisors.filter (fun b => 2 ≤ b), H b := by
  rw [Finset.sum_add_distrib]
  have hF : (∑ d ∈ m.divisors.filter (fun d => d * d ≤ m),
      if 1 < d then H d else 0)
      = ∑ b ∈ m.divisors.filter (fun b => 2 ≤ b ∧ b * b ≤ m), H b := by
    rw [← Finset.sum_filter, Finset.filter_filter]
    exact Finset.sum_congr (Finset.filter_congr fun d _ => by omega)
      fun _ _ => rfl
  have hG : (∑ d ∈ m.divisors.filter (fun d => d * d ≤ m),
      if m / d ≠ d ∧ 1 < m / d then H (m / d) else 0)
      = ∑ b ∈ m.divisors.filter (fun b => 2 ≤ b ∧ ¬ b * b ≤ m), H b := by
    rw [← Finset.sum_filter, Finset.filter_filter]
    refine Finset.sum_nbij' (fun d => m / d) (fun b => m / b) ?_ ?_ ?_ ?_ ?_
    · intro d hd
      simp only [Finset.mem_filter, Nat.mem_divisors] at hd ⊢
      obtain ⟨⟨hdvd, -⟩, hdd, hne, hgt⟩ := hd
      refine ⟨⟨Nat.div_dvd_of_dvd hdvd, hm⟩, by omega, ?_⟩
      intro hcon
      have hdpos : 0 < d := by
        rcases Nat.eq_zero_or_pos d with rfl | h
        · exact absurd (Nat.eq_zero_of_zero_dvd hdvd) hm
        · exact h
      have hde : m / d * d = m := Nat.div_mul_cancel hdvd
      have hled : d ≤ m / d := (Nat.le_div_iff_mul_le hdpos).mpr hdd
      have hmdpos : 0 < m / d := by omega
      have hcon' : m / d * (m / d) ≤ m / d * d := by rw [hde]; exact hcon
      have := Nat.le_of_mul_le_mul_left hcon' hmdpos
      omega
    · intro b hb
      simp only [Finset.mem_filter, Nat.mem_divisors] at hb ⊢
      obtain ⟨⟨hdvd, -⟩, hb2, hbig⟩ := hb
      have hbpos : 0 < b := by omega
      have hde : m / b * b = m := Nat.div_mul_cancel hdvd
      have hdlt : m / b < b := (Nat.div_lt_iff_lt_mul hbpos).mpr (by omega)
      have hback : m / (m / b) = b := Nat.div_div_self hdvd hm
      refine ⟨⟨Nat.div_dvd_of_dvd hdvd, hm⟩, ?_, ?_⟩
      · calc m / b * (m / b) ≤ m / b * b := Nat.mul_le_mul_left _ (le_of_lt hdlt)
          _ = m := hde
      · rw [hback]
        exact ⟨by omega, by omega⟩
    · intro d hd
      simp only [Finset.mem_filter, Nat.mem_divisors] at hd
      exact Nat.div_div_self hd.1.1 hm
    · intro b hb
      simp only [Finset.mem_filter, Nat.mem_divisors] at hb
      exact Nat.div_div_self hb.1.1 hm
    · intro d hd
      rfl
  rw [hF, hG,
    ← Finset.filter_filter (fun b => 2 ≤ b) (fun b => b * b ≤ m) m.divisors,
    ← Finset.filter_filter (fun b => 2 ≤ b) (fun b => ¬ b * b ≤ m) m.divisors]
  exact Finset.sum_filter_add_sum_filter_not _ _ _

/-- Helper: the while loop from index d0 >= 1 sums the loop body over the
indices d >= d0 with d * d <= val. -/
lemma smallLoop_eq_sum (a : List ℤ) (val : ℤ) (hval : 0 ≤ val) :
    ∀ d0 : ℕ, 1 ≤ d0 →
      smallLoop a val d0
        = ∑ d ∈ (Finset.Icc d0 val.toNat).filter (fun d : ℕ => (d : ℤ) * d ≤ val),
            smallBody a val d := by
  have main : ∀ fuel : ℕ, ∀ d0 : ℕ, 1 ≤ d0 → val.toNat + 1 - d0 ≤ fuel →
      smallLoop a val d0
        = ∑ d ∈ (Finset.Icc d0 val.toNat).filter (fun d : ℕ => (d : ℤ) * d ≤ val),
            smallBody a val d := by
    intro fuel
    induction fuel with
    | zero =>
      intro d0 hd0 hfuel
      have hc1 : (d0 : ℤ) ≤ (d0 : ℤ) * d0 :=
        le_mul_of_one_le_left (by positivity) (by exact_mod_cast hd0)
      rw [smallLoop, dif_neg (by omega), Finset.Icc_eq_empty (by omega),
        Finset.filter_empty, Finset.sum_empty]
    | succ fuel ih =>
      intro d0 hd0 hfuel
      by_cases hcond : (d0 : ℤ) * d0 ≤ val
      · have hc1 : (d0 : ℤ) ≤ (d0 : ℤ) * d0 :=
          le_mul_of_one_le_left (by positivity) (by exact_mod_cast hd0)
        have hd0le : d0 ≤ val.toNat := by omega
        rw [smallLoop, dif_pos hcond, ih (d0 + 1) (by omega) (by omega)]
        have hins : (Finset.Icc d0 val.toNat).filter
            (fun d : ℕ => (d : ℤ) * d ≤ val)
            = insert d0 ((Finset.Icc (d0 + 1) val.toNat).filter
                (fun d : ℕ => (d : ℤ) * d ≤ val)) := by
          ext x
          simp only [Finset.mem_insert, Finset.mem_filter, Finset.mem_Icc]
          constructor
          · rintro ⟨⟨hx1, hx2⟩, hx3⟩
            by_cases hxd : x = d0
            · exact Or.inl hxd
            · exact Or.inr ⟨⟨by omega, hx2⟩, hx3⟩
          · rintro (rfl | ⟨⟨hx1, hx2⟩, hx3⟩)
            · exact ⟨⟨le_refl _, hd0le⟩, hcond⟩
            · exact ⟨⟨by omega, hx2⟩, hx3⟩
        rw [hins, Finset.sum_insert (by
          simp only [Finset.mem_filter, Finset.mem_Icc]
          rintro ⟨⟨hx1, -⟩, -⟩
          omega)]
      · rw [smallLoop, dif_neg hcond]
        have hall : ∀ x ∈ Finset.Icc d0 val.toNat, ¬ ((x : ℤ) * x ≤ val) := by
          intro x hx hcon
          rw [Finset.mem_Icc] at hx
          have h1 : (d0 : ℤ) ≤ (x : ℤ) := by exact_mod_cast hx.1
          have h2 : (d0 : ℤ) * d0 ≤ (x : ℤ) * x :=
            mul_le_mul h1 h1 (by positivity) (by positivity)
          omega
        rw [Finset.filter_false_of_mem hall, Finset.sum_empty]
  intro d0 hd0
  exact main (val.toNat + 1 - d0) d0 hd0 le_rfl

/-- Helper: the general-case sum of optimized_triplets for one mid, written
over the divisors of mid that exceed 1. -/
lemma opt_gen_eq_canon (a : List ℤ) (val : ℤ) (hval : 1 ≤ val) :
    (if val ≤ 1 then 0
     else ∑ b ∈ bSet val.toNat,
       if b ≤ 1 then 0 else genContrib (freqIndex a) (freqIndex a val) val b)
    = ∑ b ∈ (val.toNat).divisors.filter (fun b => 2 ≤ b),
        genContrib (freqIndex a) (freqIndex a val) val b := by
  by_cases h1 : val ≤ 1
  · have hv : val = 1 := le_antisymm h1 hval
    subst hv
    rw [if_pos le_rfl, show (1 : ℤ).toNat = 1 from rfl, Nat.divisors_one,
      Finset.filter_singleton, if_neg (by omega), Finset.sum_empty]
  · rw [if_neg h1, bSet_eq_divisors val.toNat (by omega), Finset.sum_filter]
    refine Finset.sum_congr rfl fun b hb => ?_
    by_cases hb1 : b ≤ 1
    · rw [if_pos hb1, if_neg (by omega)]
    · rw [if_neg hb1, if_pos (by omega)]

/-- Helper: the val >= 10^6 branch of solve_optimized equals the
LIMIT-guarded divisor enumeration of optimized_triplets: the loop bound
b <= LIMIT // val realizes exactly the right <= LIMIT cap. -/
lemma largeBranch_eq_canon (a : List ℤ) (val : ℤ) (hval : 1 ≤ val) :
    largeBranch a val
    = ∑ b ∈ (val.toNat).divisors.filter (fun b => 2 ≤ b),
        genContrib (freqIndex a) (freqIndex a val) val b := by
  obtain ⟨m, rfl⟩ : ∃ m : ℕ, val = (m : ℤ) :=
    ⟨val.toNat, (Int.toNat_of_nonneg (by omega)).symm⟩
  have hm1 : 1 ≤ m := by exact_mod_cast hval
  simp only [Int.toNat_natCast]
  rw [largeBranch]
  have hRHS : (∑ b ∈ m.divisors.filter (fun b => 2 ≤ b),
      genContrib (freqIndex a) (freqIndex a (m : ℤ)) (m : ℤ) b)
      = ∑ b ∈ (m.divisors.filter (fun b => 2 ≤ b)).filter
          (fun b : ℕ => ¬ LIMIT < (m : ℤ) * b),
          pairContrib (freqIndex a) (freqIndex a (m : ℤ))
            ((m : ℤ) / b) ((m : ℤ) * b) := by
    rw [Finset.sum_filter, Finset.sum_filter, Finset.sum_filter]
    refine Finset.sum_congr rfl fun b hb => ?_
    by_cases h2 : 2 ≤ b
    · rw [if_pos h2, if_pos h2, genContrib]
      by_cases hL : LIMIT < (m : ℤ) * b
      · rw [if_pos hL, if_neg (fun hc => hc hL)]
      · rw [if_neg hL, if_pos hL]
    · rw [if_neg h2, if_neg h2]
  rw [hRHS, ← Finset.sum_filter]
  refine Finset.sum_nbij' (fun b : ℤ => b.toNat) (fun b : ℕ => (b : ℤ))
    ?_ ?_ ?_ ?_ ?_
  · intro b hb
    simp only [Finset.mem_filter, Finset.mem_Icc, Nat.mem_divisors] at hb ⊢
    obtain ⟨⟨hb2, hble⟩, hmod⟩ := hb
    have hdvd : b ∣ (m : ℤ) := Int.dvd_iff_emod_eq_zero.mpr hmod
    have hcast : ((b.toNat : ℕ) : ℤ) = b := Int.toNat_of_nonneg (by omega)
    have hmul : b * (m : ℤ) ≤ LIMIT :=
      (Int.le_ediv_iff_mul_le (by exact_mod_cast hm1)).mp hble
    have hdvdN : b.toNat ∣ m := by
      rw [← hcast] at hdvd
      exact_mod_cast hdvd
    refine ⟨⟨⟨hdvdN, by omega⟩, by omega⟩, ?_⟩
    rw [hcast, mul_comm]
    omega
  · intro b hb
    simp only [Finset.mem_filter, Finset.mem_Icc, Nat.mem_divisors] at hb ⊢
    obtain ⟨⟨⟨hdvd, -⟩, hb2⟩, hL⟩ := hb
    have hdvdZ : (b : ℤ) ∣ (m : ℤ) := Int.natCast_dvd_natCast.mpr hdvd
    refine ⟨⟨by exact_mod_cast hb2, ?_⟩, Int.emod_eq_zero_of_dvd hdvdZ⟩
    rw [Int.le_ediv_iff_mul_le (by exact_mod_cast hm1), mul_comm]
    omega
  · intro b hb
    simp only [Finset.mem_filter, Finset.mem_Icc] at hb
    exact Int.toNat_of_nonneg (by omega)
  · intro b hb
    exact Int.toNat_natCast b
  · intro b hb
    simp only [Finset.mem_filter, Finset.mem_Icc] at hb
    rw [Int.toNat_of_nonneg (show (0 : ℤ) ≤ b by omega)]

/-- Helper: the val < 10^6 while loop of solve_optimized equals the
LIMIT-guarded divisor enumeration of optimized_triplets, provided all values
of the sequence are at most LIMIT: a candidate right beyond LIMIT is then
absent from the Frequency Index, so the (missing) cap cannot matter. -/
lemma smallLoop_eq_canon (a : List ℤ) (val : ℤ) (hval : 1 ≤ val)
    (hrange : ∀ v ∈ a, v ≤ LIMIT) :
    smallLoop a val 1
    = ∑ b ∈ (val.toNat).divisors.filter (fun b => 2 ≤ b),
        genContrib (freqIndex a) (freqIndex a val) val b := by
  obtain ⟨m, rfl⟩ : ∃ m : ℕ, val = (m : ℤ) :=
    ⟨val.toNat, (Int.toNat_of_nonneg (by omega)).symm⟩
  have hm1 : 1 ≤ m := by exact_mod_cast hval
  simp only [Int.toNat_natCast]
  rw [smallLoop_eq_sum a (m : ℤ) (by positivity) 1 le_rfl]
  simp only [Int.toNat_natCast]
  have hfil : (Finset.Icc 1 m).filter (fun d : ℕ => (d : ℤ) * d ≤ (m : ℤ))
      = (Finset.Icc 1 m).filter (fun d => d * d ≤ m) := by
    refine Finset.filter_congr fun d _ => ?_
    have hcast : ((d * d : ℕ) : ℤ) = (d : ℤ) * d := by push_cast; ring
    omega
  rw [hfil]
  have hsets : ((Finset.Icc 1 m).filter (fun d => d * d ≤ m)).filter
      (fun d => m % d = 0)
      = m.divisors.filter (fun d => d * d ≤ m) := by
    ext d
    simp only [Finset.mem_filter, Finset.mem_Icc, Nat.mem_divisors]
    constructor
    · rintro ⟨⟨⟨hd1, hdm⟩, hdd⟩, hmod⟩
      exact ⟨⟨Nat.dvd_of_mod_eq_zero hmod, by omega⟩, hdd⟩
    · rintro ⟨⟨hdvd, -⟩, hdd⟩
      have hd1 : 1 ≤ d := by
        rcases Nat.eq_zero_or_pos d with rfl | h
        · exact absurd (Nat.eq_zero_of_zero_dvd hdvd) (by omega)
        · exact h
      exact ⟨⟨⟨hd1, Nat.le_of_dvd (by omega) hdvd⟩, hdd⟩,
        Nat.dvd_iff_mod_eq_zero.mp hdvd⟩
  have hstep1 : ∀ d ∈ (Finset.Icc 1 m).filter (fun d => d * d ≤ m),
      smallBody a (m : ℤ) d
      = if m % d = 0 then
          ((if 1 < d then
              pairContrib (freqIndex a) (freqIndex a (m : ℤ))
                ((m : ℤ) / d) ((m : ℤ) * d)
            else 0)
            + if (m : ℤ) / d ≠ (d : ℤ) ∧ 1 < (m : ℤ) / d then
                pairContrib (freqIndex a) (freqIndex a (m : ℤ))
                  d ((m : ℤ) * ((m : ℤ) / d))
              else 0)
        else 0 := by
    intro d hd
    rw [smallBody]
    refine if_congr ?_ rfl rfl
    rw [← Int.natCast_mod, Nat.cast_eq_zero]
  rw [Finset.sum_congr rfl hstep1, ← Finset.sum_filter, hsets]
  have hstep2 : ∀ d ∈ m.divisors.filter (fun d => d * d ≤ m),
      ((if 1 < d then
          pairContrib (freqIndex a) (freqIndex a (m : ℤ))
            ((m : ℤ) / d) ((m : ℤ) * d)
        else 0)
        + if (m : ℤ) / d ≠ (d : ℤ) ∧ 1 < (m : ℤ) / d then
            pairContrib (freqIndex a) (freqIndex a (m : ℤ))
              d ((m : ℤ) * ((m : ℤ) / d))
          else 0)
      = ((if 1 < d then
          pairContrib (freqIndex a) (freqIndex a (m : ℤ))
            ((m : ℤ) / d) ((m : ℤ) * d)
        else 0)
        + if m / d ≠ d ∧ 1 < m / d then
            pairContrib (freqIndex a) (freqIndex a (m : ℤ))
              ((m : ℤ) / ((m / d : ℕ) : ℤ)) ((m : ℤ) * ((m / d : ℕ) : ℤ))
          else 0) := by
    intro d hd
    simp only [Finset.mem_filter, Nat.mem_divisors] at hd
    obtain ⟨⟨hdvd, -⟩, hdd⟩ := hd
    have hcastdiv : ((m / d : ℕ) : ℤ) = (m : ℤ) / d := Int.natCast_div m d
    have hdd2 : (m : ℤ) / ((m / d : ℕ) : ℤ) = (d : ℤ) := by
      rw [← Int.natCast_div, Nat.div_div_self hdvd (by omega)]
    congr 1
    refine if_congr ?_ ?_ rfl
    · rw [← hcastdiv]
      constructor
      · rintro ⟨h1, h2⟩
        exact ⟨fun hc => h1 (by exact_mod_cast hc), by exact_mod_cast h2⟩
      · rintro ⟨h1, h2⟩
        exact ⟨fun hc => h1 (by exact_mod_cast hc), by exact_mod_cast h2⟩
    · rw [hdd2, ← hcastdiv]
  rw [Finset.sum_congr rfl hstep2,
    divisor_pairing m (by omega)
      (fun b => pairContrib (freqIndex a) (freqIndex a (m : ℤ))
        ((m : ℤ) / b) ((m : ℤ) * b))]
  refine Finset.sum_congr rfl fun b hb => ?_
  rw [genContrib]
  by_cases hL : LIMIT < (m : ℤ) * b
  · rw [if_pos hL, pairContrib, if_neg]
    rintro ⟨-, hr⟩
    have hpos : 0 < a.count ((m : ℤ) * b) := by
      have h0 : freqIndex a ((m : ℤ) * b) = a.count ((m : ℤ) * b) := rfl
      omega
    have hmem : ((m : ℤ) * b) ∈ a := List.count_pos_iff.mp hpos
    have := hrange _ hmem
    omega
  · rw [if_neg hL]

/-- C10: on every sequence whose values all lie in [1, LIMIT], the counting
core of solve_optimized.py (degenerate term, the large-value branch capped
at b <= LIMIT // val, and the small-value while loop with no cap) computes
exactly the same total as optimized_triplets in Graph.py. -/
theorem solve_optimized_matches (a : List ℤ)
    (h : ∀ v ∈ a, 1 ≤ v ∧ v ≤ LIMIT) :
    solve_optimized_count a = optimized_triplets a := by
  have hrange : ∀ v ∈ a, v ≤ LIMIT := fun v hv => (h v hv).2
  rw [solve_optimized_count, optimized_triplets]
  congr 1
  refine Finset.sum_congr rfl fun val hval => ?_
  have hv1 : 1 ≤ val := (h val (List.mem_toFinset.mp hval)).1
  rw [opt_gen_eq_canon a val hv1]
  by_cases hbig : (1000000 : ℤ) ≤ val
  · rw [if_pos hbig]
    exact largeBranch_eq_canon a val hv1
  · rw [if_neg hbig]
    exact smallLoop_eq_canon a val hv1 hrange

/-- C10 witness: on [1, 2, 4] (in range), both optimized implementations
agree. -/
theorem solve_optimized_matches_witness :
    (∀ v ∈ ([1, 2, 4] : List ℤ), 1 ≤ v ∧ v ≤ LIMIT) ∧
    solve_optimized_count [1, 2, 4] = optimized_triplets [1, 2, 4] :=
  ⟨by decide, solve_optimized_matches [1, 2, 4] (by decide)⟩
